import Mathlib

/-!
Verification development for the stitching core of faim-hcs
(`src/faim_hcs/stitching/stitching_utils.py`).

The embedding below models:
* `TilePosition` / `Tile` — the tile descriptor record (the class itself lives
  in `faim_hcs/stitching/Tile.py`; modelled from the spec, section 3).
* `shift_to_origin` — origin normalization, both as a value-level function and
  as a heap-passing function (`shift_to_origin_heap`) that makes Python's
  object aliasing explicit: the Python source does `copy(tiles)` (a shallow
  list copy) and then rebinds `tile.position` on the shared `Tile` objects.
* `fuse_linear`, `fuse_mean`, `fuse_sum` — the three fusion policies.
  Floating-point values are modelled by exact rationals (for `fuse_mean`,
  whose arithmetic at the pixels of interest is exact in IEEE float64) and by
  real numbers (for `fuse_linear`, whose weights involve Euclidean
  square roots).  Two implementation-defined sources of values are made
  explicit parameters rather than silently fixed:
    - `garbage`: `np.true_divide(a, b, where=cond)` with the default
      `out=None` leaves the output array *uninitialized* where `cond` is
      false (documented numpy ufunc semantics); the `garbage` parameter is
      the stale memory content the freshly allocated array happens to hold.
    - `noBg`: `scipy.ndimage.distance_transform_edt` is documented as the
      distance from each foreground pixel to the nearest background pixel;
      when the input has no background pixel at all this is undefined, and
      the value scipy produces there is implementation-defined.
* `translate_tiles_2d` — the warp engine: a pure translation with
  nearest-neighbour (order 0) resampling, constant fill 0, output shaped to
  the block, data cast to the target dtype and the mask channel cast to bool.
* `assemble_chunk` — per-block assembly; the returned pair of counters
  records how many times the warp and fuse callbacks were invoked.

Machine integers: the target dtype is modelled as an unsigned integer of
width `w`; `castU w` is the wrap-around cast (numpy `astype` on unsigned
ints), and float→int casts truncate toward zero (`ratTrunc` / `realTrunc`,
C-style casts as performed by numpy `astype` from float to int).
-/

/-- Unsigned-integer cast: numpy `astype` to an unsigned dtype of bit width
`w` reduces the value modulo `2 ^ w`. -/
def castU (w : ℕ) (n : ℤ) : ℤ :=
  n % 2 ^ w

/-- Truncation toward zero of a rational, the behaviour of numpy/C casts from
a floating value to an integer dtype. -/
def ratTrunc (q : ℚ) : ℤ :=
  if 0 ≤ q then ⌊q⌋ else -⌊-q⌋

/-- Truncation toward zero of a real number, the behaviour of numpy/C casts
from a floating value to an integer dtype. -/
noncomputable def realTrunc (r : ℝ) : ℤ :=
  if 0 ≤ r then ⌊r⌋ else -⌊-r⌋

/-- Modelled from the spec: the 5-tuple coordinate record `TilePosition`
(time, channel, z, y, x) of `faim_hcs/stitching/Tile.py`, which is not under
`src/`; all five coordinates are integers (spec section 3). -/
structure TilePosition where
  time : ℤ
  channel : ℤ
  z : ℤ
  y : ℤ
  x : ℤ
deriving DecidableEq, Repr

/-- Modelled from the spec: the `Tile` record of `faim_hcs/stitching/Tile.py`
(not under `src/`): a 5-D `position`, a 2-D `shape` (height, width) and the
`load_data()` capability returning the tile's 2-D pixel array (spec
section 3).  Pixel samples are modelled as integers (unsigned dtype). -/
structure Tile where
  position : TilePosition
  shape : ℕ × ℕ
  load_data : ℕ → ℕ → ℤ

/-- Default tile used by list lookups with `List.getD`. -/
def defaultTile : Tile :=
  ⟨⟨0, 0, 0, 0, 0⟩, (0, 0), fun _ _ => 0⟩

/-- Component-wise minimum of two positions (`np.min(..., axis=0)` combines
positions component-wise). -/
def pos5min (a b : TilePosition) : TilePosition :=
  ⟨min a.time b.time, min a.channel b.channel, min a.z b.z, min a.y b.y, min a.x b.x⟩

/-- Component-wise difference of two positions. -/
def pos5sub (a b : TilePosition) : TilePosition :=
  ⟨a.time - b.time, a.channel - b.channel, a.z - b.z, a.y - b.y, a.x - b.x⟩

/-- Line 200 of `stitching_utils.py`:
`min_tile_origin = np.min([np.array(tile.get_position()) for tile in tiles], axis=0)`.
On the empty list `np.min` raises; the value returned here for `[]` is junk
and all claims assume a non-empty list. -/
def minTileOrigin : List Tile → TilePosition
  | [] => ⟨0, 0, 0, 0, 0⟩
  | t :: ts => ts.foldl (fun m u => pos5min m u.position) t.position

/-- Value-level model of `shift_to_origin` (lines 187-211): every tile's
position has the component-wise minimum of all positions subtracted; shape
and pixel data are carried over unchanged. -/
def shift_to_origin (tiles : List Tile) : List Tile :=
  tiles.map (fun t => ⟨pos5sub t.position (minTileOrigin tiles), t.shape, t.load_data⟩)

/-- Read a tile cell from an explicit store (heap model: Python objects are
cells of `store`, and a Python list of tiles is a list of indices into it). -/
def getTile (store : List Tile) (r : ℕ) : Tile :=
  store.getD r defaultTile

/-- Rebind the `position` attribute of the tile object in cell `r`
(`tile.position = TilePosition(...)` mutates the shared object). -/
def setTilePos (store : List Tile) (r : ℕ) (p : TilePosition) : List Tile :=
  store.set r ⟨p, (getTile store r).shape, (getTile store r).load_data⟩

/-- Component-wise minimum of the positions reachable from a reference list,
read from the store (heap version of line 200). -/
def minTileOriginRefs (store : List Tile) : List ℕ → TilePosition
  | [] => ⟨0, 0, 0, 0, 0⟩
  | r :: rs => rs.foldl (fun m r2 => pos5min m (getTile store r2).position) (getTile store r).position

/-- Heap-passing model of `shift_to_origin` (lines 187-211) making Python
aliasing explicit.  `copy(tiles)` is a *shallow* list copy, so
`shifted_tiles` holds the same object references as the input list; the loop
then rebinds `tile.position` on those shared objects, and each iteration
reads `tile.get_position()` from the current (already partially updated)
store.  Returns the updated store together with the returned list. -/
def shift_to_origin_heap (store : List Tile) (refs : List ℕ) : List Tile × List ℕ :=
  let m := minTileOriginRefs store refs
  let shifted_refs := refs
  (shifted_refs.foldl (fun st r => setTilePos st r (pos5sub (getTile st r).position m)) store,
   shifted_refs)

/-- Numpy bool interpreted as the number 1 or 0 (rational model). -/
def boolToQ (b : Bool) : ℚ :=
  if b then 1 else 0

/-- Numpy bool interpreted as the number 1 or 0 (real model). -/
noncomputable def boolToR (b : Bool) : ℝ :=
  if b then 1 else 0

/-- Pixel of the `i`-th warped tile of a stack (out-of-range stack indices read
as 0; the fusion code never indexes out of range). -/
def tileAt (tiles : List (ℕ → ℕ → ℤ)) (i y x : ℕ) : ℤ :=
  (tiles.getD i (fun _ _ => 0)) y x

/-- Pixel of the `i`-th warped mask of a stack. -/
def maskAt (masks : List (ℕ → ℕ → Bool)) (i y x : ℕ) : Bool :=
  (masks.getD i (fun _ _ => false)) y x

/-- Model of `np.nan_to_num(·, nan=0, posinf=1, neginf=0)` on a finite
rational: finite values are left unchanged (NaN/±Inf do not exist in the
exact-rational model; the three-way replacement rule only acts on them). -/
def nanToNumQ (q : ℚ) : ℚ := q

/-- Model of `np.nan_to_num(·, nan=0, posinf=1, neginf=0)` on a finite real. -/
def nanToNumR (r : ℝ) : ℝ := r

/-- Model of `np.clip(·, 0, 1)`. -/
def clip01Q (q : ℚ) : ℚ :=
  min (max q 0) 1

/-- Model of `np.clip(·, 0, 1)` on reals. -/
noncomputable def clip01R (r : ℝ) : ℝ :=
  min (max r 0) 1

/-- Line 65: `denominator = warped_masks.sum(axis=0)` at one pixel. -/
def meanDenominator (masks : List (ℕ → ℕ → Bool)) (y x : ℕ) : ℚ :=
  ∑ i ∈ Finset.range masks.length, boolToQ (maskAt masks i y x)

/-- Lines 66-71: weight of tile `i` at one pixel for mean fusion.
`weights = np.true_divide(warped_masks, denominator, where=denominator > 0)`
(the `garbage` parameter is the uninitialized content of the freshly
allocated output array where the condition is false — documented numpy
`where=` semantics with `out=None`), then
`np.clip(np.nan_to_num(weights, nan=0, posinf=1, neginf=0), 0, 1)`. -/
def meanWeight (garbage : ℕ → ℕ → ℕ → ℚ) (masks : List (ℕ → ℕ → Bool)) (i y x : ℕ) : ℚ :=
  clip01Q (nanToNumQ
    (if 0 < meanDenominator masks y x then
      boolToQ (maskAt masks i y x) / meanDenominator masks y x
    else garbage i y x))

/-- Model of `fuse_mean` (lines 50-74) at one output pixel: the weighted sum
`np.sum(warped_tiles * weights, axis=0).astype(warped_tiles.dtype)` with the
input dtype unsigned of width `w`. -/
def fuse_mean (w : ℕ) (garbage : ℕ → ℕ → ℕ → ℚ)
    (tiles : List (ℕ → ℕ → ℤ)) (masks : List (ℕ → ℕ → Bool)) (y x : ℕ) : ℤ :=
  castU w (ratTrunc (∑ i ∈ Finset.range tiles.length,
    (tileAt tiles i y x : ℚ) * meanWeight garbage masks i y x))

/-- Model of `fuse_sum` (lines 77-93) at one output pixel: straight sum of the
tile values over the stack axis (the masks argument is accepted but unused,
exactly as in the source), accumulated in the 64-bit platform integer
(`np.sum` promotes small integer dtypes to it, wrapping modulo `2 ^ 64`),
then cast back to the input dtype of width `w`. -/
def fuse_sum (w : ℕ) (tiles : List (ℕ → ℕ → ℤ)) (_masks : List (ℕ → ℕ → Bool)) (y x : ℕ) : ℤ :=
  castU w ((tiles.map (fun t => t y x)).sum % 2 ^ 64)

/-- Squared Euclidean distance between the grid points `(y, x)` and
`(y2, x2)`. -/
def sqDistN (y x y2 x2 : ℕ) : ℕ :=
  (((y : ℤ) - y2) ^ 2 + ((x : ℤ) - x2) ^ 2).toNat

/-- Background pixels of a boolean mask on the `H × W` grid: the pixels whose
mask value is `false` (value 0 in the float image handed to
`distance_transform_edt`). -/
def bgPixels (H W : ℕ) (mask : ℕ → ℕ → Bool) : List (ℕ × ℕ) :=
  ((List.range H).product (List.range W)).filter (fun p => !(mask p.1 p.2))

/-- Smallest squared distance from `(y, x)` to a background pixel of the mask,
or `none` when the mask has no background pixel at all. -/
def minBgSqDist (H W : ℕ) (mask : ℕ → ℕ → Bool) (y x : ℕ) : Option ℕ :=
  ((bgPixels H W mask).map (fun p => sqDistN y x p.1 p.2)).min?

/-- Model of `scipy.ndimage.distance_transform_edt` at one pixel: background
pixels get 0; a foreground pixel gets the Euclidean distance to the nearest
background pixel (the square root of the minimal squared distance — the
square root is monotone, so the minimum commutes with it).  When the mask has
no background pixel at all the documented semantics is void and the value
scipy produces is implementation-defined; it is supplied by the caller as
`noBg`. -/
noncomputable def edt (H W : ℕ) (noBg : ℝ) (mask : ℕ → ℕ → Bool) (y x : ℕ) : ℝ :=
  if mask y x then
    match minBgSqDist H W mask y x with
    | some d => Real.sqrt d
    | none => noBg
  else 0

/-- Lines 30-34: raw weight of tile `i` at one pixel for linear fusion,
`weights[i] = distance_transform_edt(warped_masks[i].astype(np.float32))`;
`noBg i` is scipy's implementation-defined distance value on a mask with no
background pixel (see `edt`). -/
noncomputable def linearRawWeight (noBg : ℕ → ℕ → ℕ → ℝ) (H W : ℕ)
    (masks : List (ℕ → ℕ → Bool)) (i y x : ℕ) : ℝ :=
  edt H W (noBg i y x) (masks.getD i (fun _ _ => false)) y x

/-- Line 36: `denominator = weights.sum(axis=0)` at one pixel. -/
noncomputable def linearDenominator (noBg : ℕ → ℕ → ℕ → ℝ) (H W : ℕ)
    (masks : List (ℕ → ℕ → Bool)) (y x : ℕ) : ℝ :=
  ∑ i ∈ Finset.range masks.length, linearRawWeight noBg H W masks i y x

/-- Lines 37-43: normalized weight of tile `i` at one pixel for linear fusion:
`np.true_divide(weights, denominator, where=denominator > 0)` (with `garbage`
the uninitialized output where the condition is false), then
`np.nan_to_num(weights, nan=0, posinf=1, neginf=0)` and `np.clip(·, 0, 1)`. -/
noncomputable def linearWeight (noBg garbage : ℕ → ℕ → ℕ → ℝ) (H W : ℕ)
    (masks : List (ℕ → ℕ → Bool)) (i y x : ℕ) : ℝ :=
  clip01R (nanToNumR
    (if 0 < linearDenominator noBg H W masks y x then
      linearRawWeight noBg H W masks i y x / linearDenominator noBg H W masks y x
    else garbage i y x))

/-- Model of `fuse_linear` (lines 12-47) at one output pixel, for a stack over
the `H × W` block.  When the stack holds more than one tile
(`warped_tiles.shape[0] > 1`), the distance-transform weights above are used;
otherwise the weights are the boolean masks themselves (`weights =
warped_masks`, integer arithmetic).  The weighted sum over the stack is cast
back to the input dtype (unsigned, width `w`):
`np.sum(warped_tiles * weights, axis=0).astype(dtype)`. -/
noncomputable def fuse_linear (w : ℕ) (noBg garbage : ℕ → ℕ → ℕ → ℝ) (H W : ℕ)
    (tiles : List (ℕ → ℕ → ℤ)) (masks : List (ℕ → ℕ → Bool)) (y x : ℕ) : ℤ :=
  if 1 < tiles.length then
    castU w (realTrunc (∑ i ∈ Finset.range tiles.length,
      (tileAt tiles i y x : ℝ) * linearWeight noBg garbage H W masks i y x))
  else
    castU w (∑ i ∈ Finset.range tiles.length,
      tileAt tiles i y x * (if maskAt masks i y x then 1 else 0))

/-- Model of one value of the resampled image handed back by `skimage.warp`:
either a finite float or one of the IEEE specials.  Used to state what the
mask-channel post-processing of `translate_tiles_2d` does to each value. -/
inductive FVal where
  | finite : ℚ → FVal
  | nan : FVal
  | posinf : FVal
  | neginf : FVal
deriving DecidableEq

/-- Numpy `astype(bool)` on one float value: a value is `True` exactly when it
is nonzero, and NaN, `+Inf` and `-Inf` are all nonzero, hence `True`. -/
def FVal.astypeBool : FVal → Bool
  | .finite q => decide (q ≠ 0)
  | .nan => true
  | .posinf => true
  | .neginf => true

/-- Numpy `np.nan_to_num(·, nan=False, posinf=True, neginf=False)` applied to
a *boolean* array: `nan_to_num` returns non-inexact (here boolean) input
unchanged, so this is the identity. -/
def nanToNumBool (b : Bool) : Bool := b

/-- Lines 136 and 138-140 of `stitching_utils.py` applied to one value of the
resampled mask channel: first `warped[..., 1].astype(bool)` (line 136), then
`np.nan_to_num(np.array(warped_masks), nan=False, posinf=True, neginf=False)`
(lines 138-140), which at that point operates on an already-boolean array. -/
def maskChannelPostprocess (v : FVal) : Bool :=
  nanToNumBool v.astypeBool

/-- Block descriptor handed to `translate_tiles_2d` / `assemble_chunk` by the
dask `map_blocks` machinery: `block_info[None]["chunk-location"]`,
`block_info[None]["chunk-shape"]` and the y/x components
`array_location[3][0]`, `array_location[4][0]` of
`block_info[None]["array-location"]` (the only parts the source reads). -/
structure BlockInfo where
  chunkLocation : ℕ × ℕ × ℕ × ℕ × ℕ
  chunkShape : ℕ × ℕ × ℕ × ℕ × ℕ
  arrayLocationY : ℤ
  arrayLocationX : ℤ

/-- Warped pixel data of one tile (lines 120-135): output pixel `(r, c)` of
the block reads tile pixel `(r + y0 - ty, c + x0 - tx)` — `skimage.warp`
uses the transform as the inverse map, and the translation is
`(chunk_yx_origin - tile_origin)[::-1]` — with nearest-neighbour (order 0)
resampling, constant fill 0 outside the tile extent, and a cast of the data
channel to the target dtype (unsigned, width `w`). -/
def warpTileData (y0 x0 : ℤ) (w : ℕ) (t : Tile) : ℕ → ℕ → ℤ := fun r c =>
  let sy : ℤ := (r : ℤ) + (y0 - t.position.y)
  let sx : ℤ := (c : ℤ) + (x0 - t.position.x)
  if 0 ≤ sy ∧ sy < (t.shape.1 : ℤ) ∧ 0 ≤ sx ∧ sx < (t.shape.2 : ℤ) then
    castU w (t.load_data sy.toNat sx.toNat)
  else 0

/-- Warped foreground mask of one tile (lines 126-136): the all-ones mask
`np.ones_like(tile_data)` resampled by the same translation with fill 0, then
cast to bool — i.e. `true` exactly where the source coordinate falls inside
the tile extent. -/
def warpTileMask (y0 x0 : ℤ) (t : Tile) : ℕ → ℕ → Bool := fun r c =>
  let sy : ℤ := (r : ℤ) + (y0 - t.position.y)
  let sx : ℤ := (c : ℤ) + (x0 - t.position.x)
  decide (0 ≤ sy ∧ sy < (t.shape.1 : ℤ) ∧ 0 ≤ sx ∧ sx < (t.shape.2 : ℤ))

/-- Model of `translate_tiles_2d` (lines 96-141): per tile, the pixel data and
an all-ones mask are jointly resampled by the translation that places the
tile into block-local coordinates (warping the stacked channels jointly
equals warping them separately); the data channel is cast to the dtype and
the mask channel to bool.  The trailing `np.nan_to_num(..., nan=False,
posinf=True, neginf=False)` acts on the already-boolean mask array and
leaves it unchanged (see `maskChannelPostprocess`).  The `yx_chunk_shape`
argument only fixes the output extent; pixel values outside any extent are
the fill value in this functional model. -/
def translate_tiles_2d (blockInfo : BlockInfo) (_yxChunkShape : ℕ × ℕ) (w : ℕ)
    (tiles : List Tile) : List (ℕ → ℕ → ℤ) × List (ℕ → ℕ → Bool) :=
  let y0 := blockInfo.arrayLocationY
  let x0 := blockInfo.arrayLocationX
  (tiles.map (fun t => warpTileData y0 x0 w t),
   tiles.map (fun t => fun r c => nanToNumBool (warpTileMask y0 x0 t r c)))

/-- A 5-D numpy array: its shape and its contents (reads outside the shape
are irrelevant in this functional model). -/
structure Arr5 where
  shape : ℕ × ℕ × ℕ × ℕ × ℕ
  val : ℕ → ℕ → ℕ → ℕ → ℕ → ℤ

/-- Model of `np.zeros(chunk_shape, dtype=dtype)`. -/
def zeros5 (s : ℕ × ℕ × ℕ × ℕ × ℕ) : Arr5 :=
  ⟨s, fun _ _ _ _ _ => 0⟩

/-- Model of `assemble_chunk` (lines 144-184).  Besides the produced block the
result carries two counters: how many times the warp function and the fuse
function were invoked.  With at least one tile for the chunk location, the
warp function receives the block info, `chunk_shape[-2:]`, the dtype and the
tiles; the fused image is cast to the dtype and three singleton axes are
prepended (`stitched_img[np.newaxis, np.newaxis, np.newaxis, ...]`).  With no
tiles, an all-zero array of the full requested chunk shape is returned. -/
def assemble_chunk (blockInfo : BlockInfo)
    (tileMap : ℕ × ℕ × ℕ × ℕ × ℕ → List Tile)
    (warpFunc : BlockInfo → ℕ × ℕ → ℕ → List Tile → List (ℕ → ℕ → ℤ) × List (ℕ → ℕ → Bool))
    (fuseFunc : List (ℕ → ℕ → ℤ) → List (ℕ → ℕ → Bool) → ℕ → ℕ → ℤ)
    (w : ℕ) : Arr5 × ℕ × ℕ :=
  let tiles := tileMap blockInfo.chunkLocation
  let chunkShape := blockInfo.chunkShape
  if 0 < tiles.length then
    let warped := warpFunc blockInfo (chunkShape.2.2.2.1, chunkShape.2.2.2.2) w tiles
    let stitched : ℕ → ℕ → ℤ := fun y x => castU w (fuseFunc warped.1 warped.2 y x)
    (⟨(1, 1, 1, chunkShape.2.2.2.1, chunkShape.2.2.2.2), fun _ _ _ y x => stitched y x⟩, 1, 1)
  else
    (zeros5 chunkShape, 0, 0)

/-- Component-wise minimum commutes with subtracting a common offset. -/
theorem pos5min_sub_sub (a b c : TilePosition) :
    pos5min (pos5sub a c) (pos5sub b c) = pos5sub (pos5min a b) c := by
  simp [pos5min, pos5sub, min_sub_sub_right]

/-- Subtracting a position from itself gives the origin. -/
theorem pos5sub_self (a : TilePosition) : pos5sub a a = ⟨0, 0, 0, 0, 0⟩ := by
  simp [pos5sub]

/-- Relative offsets are invariant under a common shift. -/
theorem pos5sub_shift_cancel (a b c : TilePosition) :
    pos5sub (pos5sub a c) (pos5sub b c) = pos5sub a b := by
  simp [pos5sub, sub_sub_sub_cancel_right]

/-- Folding the component-wise minimum over a list of tiles all shifted by the
same offset equals the unshifted fold, shifted. -/
theorem foldl_pos5min_map_sub (ts : List Tile) (c : TilePosition) (a : TilePosition) :
    ((ts.map (fun t => (⟨pos5sub t.position c, t.shape, t.load_data⟩ : Tile))).foldl
        (fun m u => pos5min m u.position) (pos5sub a c))
      = pos5sub (ts.foldl (fun m u => pos5min m u.position) a) c := by
  induction ts generalizing a with
  | nil => rfl
  | cons t ts ih =>
    simp only [List.map_cons, List.foldl_cons]
    rw [pos5min_sub_sub]
    exact ih (pos5min a t.position)

/-- The minimum origin of the shifted list is the shifted minimum origin. -/
theorem minTileOrigin_shift (t : Tile) (ts : List Tile) (c : TilePosition) :
    minTileOrigin ((t :: ts).map fun u => ⟨pos5sub u.position c, u.shape, u.load_data⟩)
      = pos5sub (minTileOrigin (t :: ts)) c := by
  simp only [List.map_cons, minTileOrigin]
  exact foldl_pos5min_map_sub ts c t.position

/-- Slot `i` of the normalized list is slot `i` of the input with the global
minimum origin subtracted, shape and pixel data untouched. -/
theorem shift_to_origin_getD (tiles : List Tile) (i : ℕ) (hi : i < tiles.length) :
    (shift_to_origin tiles).getD i defaultTile
      = ⟨pos5sub (tiles.getD i defaultTile).position (minTileOrigin tiles),
         (tiles.getD i defaultTile).shape, (tiles.getD i defaultTile).load_data⟩ := by
  have hi2 : i < (shift_to_origin tiles).length := by
    simpa [shift_to_origin] using hi
  rw [List.getD_eq_getElem _ _ hi2, List.getD_eq_getElem _ _ hi]
  simp [shift_to_origin]

/-- C2: on every non-empty tile list, `shift_to_origin` yields a list whose
component-wise minimum position is exactly `(0, 0, 0, 0, 0)`; it preserves
the list length, every pairwise position difference, every tile's shape and
pixel data, and slot `i` of the output is slot `i` of the input shifted by
the global minimum (so the input order is preserved). -/
theorem c2_shift_to_origin_normalizes (tiles : List Tile) (h : tiles ≠ []) :
    minTileOrigin (shift_to_origin tiles) = ⟨0, 0, 0, 0, 0⟩
      ∧ (shift_to_origin tiles).length = tiles.length
      ∧ (∀ i j, i < tiles.length → j < tiles.length →
          pos5sub ((shift_to_origin tiles).getD i defaultTile).position
              ((shift_to_origin tiles).getD j defaultTile).position
            = pos5sub (tiles.getD i defaultTile).position (tiles.getD j defaultTile).position)
      ∧ (∀ i, i < tiles.length →
          ((shift_to_origin tiles).getD i defaultTile).shape = (tiles.getD i defaultTile).shape
            ∧ ((shift_to_origin tiles).getD i defaultTile).load_data
                = (tiles.getD i defaultTile).load_data
            ∧ ((shift_to_origin tiles).getD i defaultTile).position
                = pos5sub (tiles.getD i defaultTile).position (minTileOrigin tiles)) := by
  refine ⟨?_, by simp [shift_to_origin], ?_, ?_⟩
  · match tiles, h with
    | t :: ts, _ =>
      rw [shift_to_origin, minTileOrigin_shift t ts (minTileOrigin (t :: ts)), pos5sub_self]
  · intro i j hi hj
    rw [shift_to_origin_getD tiles i hi, shift_to_origin_getD tiles j hj]
    exact pos5sub_shift_cancel _ _ _
  · intro i hi
    rw [shift_to_origin_getD tiles i hi]
    exact ⟨rfl, rfl, rfl⟩

/-- C8: linear fusion of a one-tile stack with its all-true mask is the
identity on the tile's pixels (for in-range dtype values): with `N = 1` the
weights are the boolean mask itself, no distance transform and no
normalization happen, and every covered pixel keeps its value. -/
theorem c8_single_tile_linear_identity (w : ℕ) (noBg garbage : ℕ → ℕ → ℕ → ℝ)
    (H W : ℕ) (t : ℕ → ℕ → ℤ) (y x : ℕ)
    (h0 : 0 ≤ t y x) (h1 : t y x < 2 ^ w) :
    fuse_linear w noBg garbage H W [t] [fun _ _ => true] y x = t y x := by
  rw [fuse_linear, if_neg (by simp)]
  simp [tileAt, maskAt, castU]
  exact Int.emod_eq_of_lt h0 h1

/-- Witness for C8 at a concrete input: a constant tile of value 42 in a
`uint8` block is returned unchanged. -/
theorem c8_witness :
    (0 : ℤ) ≤ 42 ∧ (42 : ℤ) < 2 ^ 8
      ∧ fuse_linear 8 (fun _ _ _ => 0) (fun _ _ _ => 0) 1 1
          [fun _ _ => 42] [fun _ _ => true] 0 0 = 42 :=
  ⟨by decide, by decide,
    c8_single_tile_linear_identity 8 (fun _ _ _ => 0) (fun _ _ _ => 0) 1 1
      (fun _ _ => 42) 0 0 (by decide) (by decide)⟩

/-- Witness for C2 at a concrete input: a two-tile list with minimum position
`(0, 1, 1, 2, 2)` normalizes to minimum `(0, 0, 0, 0, 0)`. -/
theorem c2_witness :
    ([⟨⟨1, 2, 3, 4, 5⟩, (2, 2), fun _ _ => 0⟩,
        ⟨⟨0, 1, 1, 2, 2⟩, (3, 3), fun _ _ => 1⟩] : List Tile) ≠ []
      ∧ minTileOrigin (shift_to_origin
          [⟨⟨1, 2, 3, 4, 5⟩, (2, 2), fun _ _ => 0⟩,
           ⟨⟨0, 1, 1, 2, 2⟩, (3, 3), fun _ _ => 1⟩]) = ⟨0, 0, 0, 0, 0⟩ :=
  ⟨by simp, (c2_shift_to_origin_normalizes _ (by simp)).1⟩

/-- Mean fusion at a pixel covered by exactly one tile's mask returns that
tile's pixel value (in-range for the dtype): the denominator is 1, the
covering tile gets weight 1 and all others weight 0. -/
theorem fuse_mean_single_cover (w : ℕ) (garbage : ℕ → ℕ → ℕ → ℚ)
    (tiles : List (ℕ → ℕ → ℤ)) (masks : List (ℕ → ℕ → Bool)) (y x j : ℕ)
    (hlen : masks.length = tiles.length) (hj : j < tiles.length)
    (hmj : maskAt masks j y x = true)
    (hothers : ∀ i, i < masks.length → i ≠ j → maskAt masks i y x = false)
    (h0 : 0 ≤ tileAt tiles j y x) (h1 : tileAt tiles j y x < 2 ^ w) :
    fuse_mean w garbage tiles masks y x = tileAt tiles j y x := by
  have hden : meanDenominator masks y x = 1 := by
    rw [meanDenominator, Finset.sum_eq_single j]
    · rw [hmj]; rfl
    · intro i hi hij
      rw [hothers i (Finset.mem_range.mp hi) hij]; rfl
    · intro hjmem
      exact absurd (Finset.mem_range.mpr (hlen ▸ hj)) hjmem
  have hwj : meanWeight garbage masks j y x = 1 := by
    rw [meanWeight, hden, if_pos one_pos, hmj]
    norm_num [boolToQ, nanToNumQ, clip01Q]
  have hwi : ∀ i, i < masks.length → i ≠ j → meanWeight garbage masks i y x = 0 := by
    intro i hi hij
    rw [meanWeight, hden, if_pos one_pos, hothers i hi hij]
    norm_num [boolToQ, nanToNumQ, clip01Q]
  have hsum : (∑ i ∈ Finset.range tiles.length,
      (tileAt tiles i y x : ℚ) * meanWeight garbage masks i y x)
        = (tileAt tiles j y x : ℚ) := by
    rw [Finset.sum_eq_single j]
    · rw [hwj, mul_one]
    · intro i hi hij
      have hi2 : i < masks.length := by rw [hlen]; exact Finset.mem_range.mp hi
      rw [hwi i hi2 hij, mul_zero]
    · intro hjmem
      exact absurd (Finset.mem_range.mpr hj) hjmem
  rw [fuse_mean, hsum, ratTrunc, if_pos (by exact_mod_cast h0), Int.floor_intCast, castU]
  exact Int.emod_eq_of_lt h0 h1

/-- Linear fusion (two or more tiles) at a pixel covered by exactly one
tile's mask, whose mask has at least one background pixel in the block,
returns that tile's pixel value: the covering tile's distance-transform
weight is positive there, every other tile's distance transform is 0 there,
so normalization assigns weight 1 to the covering tile and 0 to the rest. -/
theorem fuse_linear_single_cover (w : ℕ) (noBg garbage : ℕ → ℕ → ℕ → ℝ) (H W : ℕ)
    (tiles : List (ℕ → ℕ → ℤ)) (masks : List (ℕ → ℕ → Bool)) (y x j : ℕ)
    (hlen : masks.length = tiles.length) (hN : 2 ≤ tiles.length) (hj : j < tiles.length)
    (hmj : maskAt masks j y x = true)
    (hothers : ∀ i, i < masks.length → i ≠ j → maskAt masks i y x = false)
    (hbg : 0 < (bgPixels H W (masks.getD j (fun _ _ => false))).length)
    (h0 : 0 ≤ tileAt tiles j y x) (h1 : tileAt tiles j y x < 2 ^ w) :
    fuse_linear w noBg garbage H W tiles masks y x = tileAt tiles j y x := by
  have hbgne : bgPixels H W (masks.getD j (fun _ _ => false)) ≠ [] :=
    List.length_pos.mp hbg
  obtain ⟨d, hd⟩ : ∃ d, minBgSqDist H W (masks.getD j (fun _ _ => false)) y x = some d := by
    rw [minBgSqDist]
    match hcase : (bgPixels H W (masks.getD j (fun _ _ => false))), hbgne with
    | p :: ps, _ => exact ⟨_, List.min?_cons⟩
  have hdpos : 0 < d := by
    have hmem : d ∈ (bgPixels H W (masks.getD j (fun _ _ => false))).map
        (fun p => sqDistN y x p.1 p.2) :=
      List.min?_mem (fun a b => min_choice a b) hd
    obtain ⟨p, hp, hpd⟩ := List.mem_map.mp hmem
    have hpbg : (masks.getD j (fun _ _ => false)) p.1 p.2 = false := by
      have := (List.mem_filter.mp hp).2
      simpa using this
    have hpne : p.1 ≠ y ∨ p.2 ≠ x := by
      by_contra hc
      push_neg at hc
      rw [hc.1, hc.2] at hpbg
      rw [maskAt] at hmj
      rw [hmj] at hpbg
      exact Bool.noConfusion hpbg
    have hzpos : (0 : ℤ) < ((y : ℤ) - p.1) ^ 2 + ((x : ℤ) - p.2) ^ 2 := by
      rcases hpne with hne | hne
      · have hs : ((y : ℤ) - p.1) ≠ 0 := by
          rw [sub_ne_zero]
          exact_mod_cast hne.symm
        exact add_pos_of_pos_of_nonneg
          (lt_of_le_of_ne (sq_nonneg _) (Ne.symm (pow_ne_zero 2 hs))) (sq_nonneg _)
      · have hs : ((x : ℤ) - p.2) ≠ 0 := by
          rw [sub_ne_zero]
          exact_mod_cast hne.symm
        exact add_pos_of_nonneg_of_pos (sq_nonneg _)
          (lt_of_le_of_ne (sq_nonneg _) (Ne.symm (pow_ne_zero 2 hs)))
    rw [← hpd, sqDistN]
    exact_mod_cast Int.toNat_of_nonneg hzpos.le ▸ hzpos
  have hrwj : linearRawWeight noBg H W masks j y x = Real.sqrt d := by
    rw [linearRawWeight, edt]
    rw [maskAt] at hmj
    rw [hmj, if_pos rfl, hd]
  have hrwj_pos : 0 < linearRawWeight noBg H W masks j y x := by
    rw [hrwj]
    exact Real.sqrt_pos.mpr (by exact_mod_cast hdpos)
  have hrwi : ∀ i, i < masks.length → i ≠ j → linearRawWeight noBg H W masks i y x = 0 := by
    intro i hi hij
    have hmi := hothers i hi hij
    rw [maskAt] at hmi
    rw [linearRawWeight, edt, hmi]
    simp
  have hden : linearDenominator noBg H W masks y x
      = linearRawWeight noBg H W masks j y x := by
    rw [linearDenominator, Finset.sum_eq_single j]
    · intro i hi hij
      exact hrwi i (Finset.mem_range.mp hi) hij
    · intro hjmem
      exact absurd (Finset.mem_range.mpr (hlen ▸ hj)) hjmem
  have hwj : linearWeight noBg garbage H W masks j y x = 1 := by
    rw [linearWeight, hden, if_pos hrwj_pos, div_self (ne_of_gt hrwj_pos)]
    norm_num [nanToNumR, clip01R]
  have hwi : ∀ i, i < masks.length → i ≠ j →
      linearWeight noBg garbage H W masks i y x = 0 := by
    intro i hi hij
    rw [linearWeight, hden, if_pos hrwj_pos, hrwi i hi hij, zero_div]
    norm_num [nanToNumR, clip01R]
  have hsum : (∑ i ∈ Finset.range tiles.length,
      (tileAt tiles i y x : ℝ) * linearWeight noBg garbage H W masks i y x)
        = (tileAt tiles j y x : ℝ) := by
    rw [Finset.sum_eq_single j]
    · rw [hwj, mul_one]
    · intro i hi hij
      have hi2 : i < masks.length := by rw [hlen]; exact Finset.mem_range.mp hi
      rw [hwi i hi2 hij, mul_zero]
    · intro hjmem
      exact absurd (Finset.mem_range.mpr hj) hjmem
  rw [fuse_linear, if_pos (lt_of_lt_of_le one_lt_two hN), hsum, realTrunc,
    if_pos (by exact_mod_cast h0), Int.floor_intCast, castU]
  exact Int.emod_eq_of_lt h0 h1

/-- C9 (amended): at a pixel covered by exactly one tile's mask, mean fusion
returns the covering tile's value (for in-range dtype values), and linear
fusion with two or more tiles does so as well *provided* the covering tile's
mask has at least one background pixel in the block — when it has none,
scipy's distance-transform value on an all-foreground mask is
implementation-defined and the fused value can differ (see the
counterexample). -/
theorem c9_single_cover_pixel :
    (∀ (w : ℕ) (garbage : ℕ → ℕ → ℕ → ℚ) (tiles : List (ℕ → ℕ → ℤ))
        (masks : List (ℕ → ℕ → Bool)) (y x j : ℕ),
      masks.length = tiles.length → j < tiles.length →
      maskAt masks j y x = true →
      (∀ i, i < masks.length → i ≠ j → maskAt masks i y x = false) →
      0 ≤ tileAt tiles j y x → tileAt tiles j y x < 2 ^ w →
      fuse_mean w garbage tiles masks y x = tileAt tiles j y x)
    ∧ (∀ (w : ℕ) (noBg garbage : ℕ → ℕ → ℕ → ℝ) (H W : ℕ) (tiles : List (ℕ → ℕ → ℤ))
        (masks : List (ℕ → ℕ → Bool)) (y x j : ℕ),
      masks.length = tiles.length → 2 ≤ tiles.length → j < tiles.length →
      maskAt masks j y x = true →
      (∀ i, i < masks.length → i ≠ j → maskAt masks i y x = false) →
      0 < (bgPixels H W (masks.getD j (fun _ _ => false))).length →
      0 ≤ tileAt tiles j y x → tileAt tiles j y x < 2 ^ w →
      fuse_linear w noBg garbage H W tiles masks y x = tileAt tiles j y x) :=
  ⟨fun w garbage tiles masks y x j h1 h2 h3 h4 h5 h6 =>
    fuse_mean_single_cover w garbage tiles masks y x j h1 h2 h3 h4 h5 h6,
   fun w noBg garbage H W tiles masks y x j h1 h2 h3 h4 h5 h6 h7 h8 =>
    fuse_linear_single_cover w noBg garbage H W tiles masks y x j h1 h2 h3 h4 h5 h6 h7 h8⟩

/-- Counterexample to C9 as stated: on a 1×1 block, a covering tile whose
mask is all-true has no background pixel, so its distance-transform value is
implementation-defined; with that value 0 (the value consistent with scipy's
zero-initialized feature transform at the origin pixel) the denominator is 0,
`np.true_divide(..., where=...)` leaves the weight uninitialized (here stale
value 0), and the fused value is 0 instead of the covering tile's value 5. -/
theorem c9_counterexample :
    maskAt [fun _ _ => true, fun _ _ => false] 0 0 0 = true
      ∧ maskAt [fun _ _ => true, fun _ _ => false] 1 0 0 = false
      ∧ tileAt [fun _ _ => (5 : ℤ), fun _ _ => 9] 0 0 0 = 5
      ∧ fuse_linear 8 (fun _ _ _ => 0) (fun _ _ _ => 0) 1 1
          [fun _ _ => (5 : ℤ), fun _ _ => 9]
          [fun _ _ => true, fun _ _ => false] 0 0 = 0
      ∧ (0 : ℤ) ≠ 5 := by
  refine ⟨rfl, rfl, rfl, ?_, by decide⟩
  have hr0 : linearRawWeight (fun _ _ _ => (0 : ℝ)) 1 1
      [fun _ _ => true, fun _ _ => false] 0 0 0 = 0 := by
    have hnone : minBgSqDist 1 1 (fun _ _ => true) 0 0 = none := rfl
    rw [linearRawWeight]
    simp only [List.getD_cons_zero]
    rw [edt, if_pos rfl, hnone]
  have hr1 : linearRawWeight (fun _ _ _ => (0 : ℝ)) 1 1
      [fun _ _ => true, fun _ _ => false] 1 0 0 = 0 := by
    rw [linearRawWeight]
    simp only [List.getD_cons_succ, List.getD_cons_zero]
    rw [edt]
    simp
  have hden : linearDenominator (fun _ _ _ => (0 : ℝ)) 1 1
      [fun _ _ => true, fun _ _ => false] 0 0 = 0 := by
    rw [linearDenominator]
    simp [Finset.sum_range_succ, hr0, hr1]
  have hw : ∀ i, linearWeight (fun _ _ _ => (0 : ℝ)) (fun _ _ _ => 0) 1 1
      [fun _ _ => true, fun _ _ => false] i 0 0 = 0 := by
    intro i
    rw [linearWeight, hden]
    norm_num [nanToNumR, clip01R]
  rw [fuse_linear, if_pos (by norm_num)]
  simp [hw, realTrunc, castU]

/-- Witness for C9 at concrete inputs: mean fusion over masks
`[all-true, all-false]` and linear fusion on a 1×2 block over masks
`[x = 0, all-false]` (the covering mask has background pixel `(0, 1)`) both
return the covering tile's value 5. -/
theorem c9_witness :
    maskAt [fun _ x => decide (x = 0), fun _ _ => false] 0 0 0 = true
      ∧ 0 < (bgPixels 1 2 (([fun _ x => decide (x = 0), fun _ _ => false] :
          List (ℕ → ℕ → Bool)).getD 0 (fun _ _ => false))).length
      ∧ fuse_mean 8 (fun _ _ _ => 0) [fun _ _ => (5 : ℤ), fun _ _ => 9]
          [fun _ _ => true, fun _ _ => false] 0 0
          = tileAt [fun _ _ => (5 : ℤ), fun _ _ => 9] 0 0 0
      ∧ fuse_linear 8 (fun _ _ _ => 0) (fun _ _ _ => 0) 1 2
          [fun _ _ => (5 : ℤ), fun _ _ => 9]
          [fun _ x => decide (x = 0), fun _ _ => false] 0 0
          = tileAt [fun _ _ => (5 : ℤ), fun _ _ => 9] 0 0 0 :=
  ⟨rfl, by decide,
   c9_single_cover_pixel.1 8 (fun _ _ _ => 0) [fun _ _ => (5 : ℤ), fun _ _ => 9]
     [fun _ _ => true, fun _ _ => false] 0 0 0 rfl (by decide) rfl
     (by
       intro i hi hij
       have hi2 : i < 2 := by simpa using hi
       interval_cases i
       · exact absurd rfl hij
       · rfl)
     (by decide) (by decide),
   c9_single_cover_pixel.2 8 (fun _ _ _ => 0) (fun _ _ _ => 0) 1 2
     [fun _ _ => (5 : ℤ), fun _ _ => 9]
     [fun _ x => decide (x = 0), fun _ _ => false] 0 0 0 rfl (by decide) (by decide) rfl
     (by
       intro i hi hij
       have hi2 : i < 2 := by simpa using hi
       interval_cases i
       · exact absurd rfl hij
       · rfl)
     (by decide) (by decide) (by decide)⟩

/-- C3: origin normalization was claimed not to mutate the input tiles, but
`copy(tiles)` is a shallow list copy, so the loop rebinds `position` on the
very tile objects of the input list: running `shift_to_origin` on a store
holding one tile at position `(1, 2, 3, 4, 5)` leaves the tile reachable
through the *original* reference (cell 0) with position `(0, 0, 0, 0, 0)`,
not its pre-normalization position. -/
theorem c3_shift_to_origin_mutates_originals :
    (getTile (shift_to_origin_heap [⟨⟨1, 2, 3, 4, 5⟩, (4, 4), fun _ _ => 0⟩] [0]).1 0).position
        = ⟨0, 0, 0, 0, 0⟩
      ∧ (⟨0, 0, 0, 0, 0⟩ : TilePosition) ≠ ⟨1, 2, 3, 4, 5⟩ := by
  exact ⟨rfl, by decide⟩

/-- C4: a pixel covered by no mask does *not* fuse to 0: at such a pixel the
denominator is 0, `np.true_divide(..., where=denominator > 0)` leaves the
weight uninitialized there, and the stale memory content (here `1/2`)
survives `nan_to_num` and `clip`, so a lone tile of value 7 with an all-false
mask fuses to 3, not 0. -/
theorem c4_uncovered_pixel_not_zero :
    fuse_mean 8 (fun _ _ _ => (1 : ℚ) / 2) [fun _ _ => 7] [fun _ _ => false] 0 0 = 3
      ∧ (3 : ℤ) ≠ 0 := by
  constructor
  · norm_num [fuse_mean, meanWeight, meanDenominator, maskAt, tileAt, boolToQ, clip01Q,
      nanToNumQ, ratTrunc, castU]
  · decide

/-- C6: the mask-channel post-processing of `translate_tiles_2d` maps NaN to
`True` (and `-Inf` to `True` as well), because the cast to bool happens first
(line 136) and numpy's `bool` of NaN/±Inf is `True`, while the subsequent
`nan_to_num` (lines 138-140) is a no-op on the already-boolean array — the
claimed NaN→False / −Inf→False mapping never happens. -/
theorem c6_mask_nan_becomes_true :
    maskChannelPostprocess FVal.nan = true
      ∧ maskChannelPostprocess FVal.neginf = true
      ∧ maskChannelPostprocess FVal.posinf = true := by
  exact ⟨rfl, rfl, rfl⟩

/-- C7: `fuse_sum` ignores its mask argument entirely (the output is the same
for any two mask stacks), and on `N` tiles of constant value `v` it returns
`N * v` reduced modulo the dtype range (dtype overflow/truncation), for any
unsigned dtype width `w ≤ 64`. -/
theorem c7_fuse_sum_ignores_masks_and_accumulates :
    (∀ (w : ℕ) (tiles : List (ℕ → ℕ → ℤ)) (masks1 masks2 : List (ℕ → ℕ → Bool)) (y x : ℕ),
        fuse_sum w tiles masks1 y x = fuse_sum w tiles masks2 y x)
    ∧ (∀ (w : ℕ), w ≤ 64 → ∀ (N : ℕ) (v : ℤ) (masks : List (ℕ → ℕ → Bool)) (y x : ℕ),
        fuse_sum w (List.replicate N (fun _ _ => v)) masks y x
          = ((N : ℤ) * v) % 2 ^ w) := by
  constructor
  · intro w tiles masks1 masks2 y x
    rfl
  · intro w hw N v masks y x
    simp only [fuse_sum, castU]
    rw [Int.emod_emod_of_dvd _ (pow_dvd_pow 2 hw)]
    congr 1
    rw [List.map_replicate, List.sum_replicate]
    simp [nsmul_eq_mul]

/-- Witness for C7 at a concrete input: three tiles of constant value 10 with
dtype `uint8` fuse to `30 % 256`. -/
theorem c7_witness :
    8 ≤ 64
      ∧ fuse_sum 8 (List.replicate 3 (fun _ _ => (10 : ℤ))) [] 0 0
          = ((3 : ℤ) * 10) % 2 ^ 8 :=
  ⟨by decide, c7_fuse_sum_ignores_masks_and_accumulates.2 8 (by decide) 3 10 [] 0 0⟩

/-- C5: on a block location whose tile-map entry is the empty list,
`assemble_chunk` returns the all-zero array of exactly the requested 5-D
chunk shape, and neither the warp function nor the fuse function is invoked
(both call counters are 0). -/
theorem c5_empty_block_assembly (blockInfo : BlockInfo)
    (tileMap : ℕ × ℕ × ℕ × ℕ × ℕ → List Tile)
    (warpFunc : BlockInfo → ℕ × ℕ → ℕ → List Tile → List (ℕ → ℕ → ℤ) × List (ℕ → ℕ → Bool))
    (fuseFunc : List (ℕ → ℕ → ℤ) → List (ℕ → ℕ → Bool) → ℕ → ℕ → ℤ)
    (w : ℕ) (h : tileMap blockInfo.chunkLocation = []) :
    assemble_chunk blockInfo tileMap warpFunc fuseFunc w = (zeros5 blockInfo.chunkShape, 0, 0) := by
  simp [assemble_chunk, h]

/-- Witness for C5 at a concrete input: the everywhere-empty tile map yields
the zero block and zero call counts. -/
theorem c5_witness :
    (fun _ : ℕ × ℕ × ℕ × ℕ × ℕ => ([] : List Tile)) (0, 0, 0, 0, 0) = []
      ∧ assemble_chunk ⟨(0, 0, 0, 0, 0), (1, 1, 1, 2, 2), 0, 0⟩ (fun _ => [])
          (fun _ _ _ _ => ([], [])) (fun _ _ _ _ => 0) 8
        = (zeros5 (1, 1, 1, 2, 2), 0, 0) :=
  ⟨rfl, c5_empty_block_assembly ⟨(0, 0, 0, 0, 0), (1, 1, 1, 2, 2), 0, 0⟩ _ _ _ 8 rfl⟩

/-- C10: when at least one tile intersects the block, the assembled array has
shape `(1, 1, 1, H, W)` with `(H, W)` the two trailing entries of the
requested chunk shape; the leading three entries of the requested chunk
shape are never read (replacing them by 1 gives the identical result, with
the repository's warp engine), and the output shape equals the full
requested chunk shape exactly when the three leading entries are all 1. -/
theorem c10_assembled_block_shape
    (tileMap : ℕ × ℕ × ℕ × ℕ × ℕ → List Tile)
    (fuseFunc : List (ℕ → ℕ → ℤ) → List (ℕ → ℕ → Bool) → ℕ → ℕ → ℤ)
    (w : ℕ) (loc : ℕ × ℕ × ℕ × ℕ × ℕ) (a b c H W : ℕ) (ay ax : ℤ)
    (h : tileMap loc ≠ []) :
    (assemble_chunk ⟨loc, (a, b, c, H, W), ay, ax⟩ tileMap translate_tiles_2d fuseFunc w).1.shape
        = (1, 1, 1, H, W)
      ∧ assemble_chunk ⟨loc, (a, b, c, H, W), ay, ax⟩ tileMap translate_tiles_2d fuseFunc w
          = assemble_chunk ⟨loc, (1, 1, 1, H, W), ay, ax⟩ tileMap translate_tiles_2d fuseFunc w
      ∧ (((1, 1, 1, H, W) : ℕ × ℕ × ℕ × ℕ × ℕ) = (a, b, c, H, W) ↔ a = 1 ∧ b = 1 ∧ c = 1) := by
  have hl : 0 < (tileMap loc).length := List.length_pos.mpr h
  refine ⟨?_, ?_, ?_⟩
  · simp [assemble_chunk, hl]
  · simp [assemble_chunk, hl, translate_tiles_2d]
  · constructor
    · intro he
      obtain ⟨h1, h2, h3, _, _⟩ := Prod.mk.injEq .. ▸ he
      exact ⟨h1.symm, by simp_all [Prod.ext_iff], by simp_all [Prod.ext_iff]⟩
    · rintro ⟨rfl, rfl, rfl⟩
      rfl

/-- Witness for C10 at a concrete input: a one-tile map over a requested
chunk shape `(2, 3, 4, 5, 6)`. -/
theorem c10_witness :
    (fun _ : ℕ × ℕ × ℕ × ℕ × ℕ => [defaultTile]) (0, 0, 0, 0, 0) ≠ []
      ∧ ((assemble_chunk ⟨(0, 0, 0, 0, 0), (2, 3, 4, 5, 6), 0, 0⟩ (fun _ => [defaultTile])
            translate_tiles_2d (fuse_sum 8) 8).1.shape = (1, 1, 1, 5, 6)
        ∧ assemble_chunk ⟨(0, 0, 0, 0, 0), (2, 3, 4, 5, 6), 0, 0⟩ (fun _ => [defaultTile])
            translate_tiles_2d (fuse_sum 8) 8
          = assemble_chunk ⟨(0, 0, 0, 0, 0), (1, 1, 1, 5, 6), 0, 0⟩ (fun _ => [defaultTile])
              translate_tiles_2d (fuse_sum 8) 8
        ∧ (((1, 1, 1, 5, 6) : ℕ × ℕ × ℕ × ℕ × ℕ) = (2, 3, 4, 5, 6) ↔ 2 = 1 ∧ 3 = 1 ∧ 4 = 1)) :=
  ⟨by simp, c10_assembled_block_shape (fun _ => [defaultTile]) (fuse_sum 8) 8
    (0, 0, 0, 0, 0) 2 3 4 5 6 0 0 (by simp)⟩

/-- Tile A of the end-to-end example: 4×4 pixels of constant value 10 at
global position (y, x) = (0, 0). -/
def tileA : Tile := ⟨⟨0, 0, 0, 0, 0⟩, (4, 4), fun _ _ => 10⟩

/-- Tile B of the end-to-end example: 4×4 pixels of constant value 20 at
global position (y, x) = (0, 2). -/
def tileB : Tile := ⟨⟨0, 0, 0, 0, 2⟩, (4, 4), fun _ _ => 20⟩

/-- Block descriptor of the end-to-end example: a single 4×6 block whose
origin is global pixel (0, 0). -/
def c1BlockInfo : BlockInfo := ⟨(0, 0, 0, 0, 0), (1, 1, 1, 4, 6), 0, 0⟩

/-- Expected fused value of the end-to-end example by column: 10 on columns
0-1 (tile A only), 15 on columns 2-3 (mean of the overlap), 20 on columns
4-5 (tile B only). -/
def c1Expected (x : ℕ) : ℤ :=
  if x < 2 then 10 else if x < 4 then 15 else 20

/-- Warped tile A covers columns 0-3 of the block with value 10. -/
theorem c1A_data_in (y x : ℕ) (hy : y < 4) (hx : x < 4) :
    warpTileData 0 0 16 tileA y x = 10 := by
  rw [warpTileData]
  simp only [tileA]
  rw [if_pos (by push_cast; omega)]
  decide

/-- Warped tile A reads the fill value 0 on columns 4-5. -/
theorem c1A_data_out (y x : ℕ) (hx : 4 ≤ x) : warpTileData 0 0 16 tileA y x = 0 := by
  rw [warpTileData]
  simp only [tileA]
  rw [if_neg (by push_cast; omega)]

/-- Warped mask of tile A is true on columns 0-3. -/
theorem c1A_mask_in (y x : ℕ) (hy : y < 4) (hx : x < 4) :
    warpTileMask 0 0 tileA y x = true := by
  rw [warpTileMask]
  simp only [tileA, decide_eq_true_eq]
  push_cast
  omega

/-- Warped mask of tile A is false on columns 4-5. -/
theorem c1A_mask_out (y x : ℕ) (hx : 4 ≤ x) : warpTileMask 0 0 tileA y x = false := by
  rw [warpTileMask]
  simp only [tileA, decide_eq_false_iff_not]
  push_cast
  omega

/-- Warped tile B covers columns 2-5 of the block with value 20. -/
theorem c1B_data_in (y x : ℕ) (hy : y < 4) (h2 : 2 ≤ x) (h6 : x < 6) :
    warpTileData 0 0 16 tileB y x = 20 := by
  rw [warpTileData]
  simp only [tileB]
  rw [if_pos (by push_cast; omega)]
  decide

/-- Warped tile B reads the fill value 0 on columns 0-1. -/
theorem c1B_data_out (y x : ℕ) (h2 : x < 2) : warpTileData 0 0 16 tileB y x = 0 := by
  rw [warpTileData]
  simp only [tileB]
  rw [if_neg (by push_cast; omega)]

/-- Warped mask of tile B is true on columns 2-5. -/
theorem c1B_mask_in (y x : ℕ) (hy : y < 4) (h2 : 2 ≤ x) (h6 : x < 6) :
    warpTileMask 0 0 tileB y x = true := by
  rw [warpTileMask]
  simp only [tileB, decide_eq_true_eq]
  push_cast
  omega

/-- Warped mask of tile B is false on columns 0-1. -/
theorem c1B_mask_out (y x : ℕ) (h2 : x < 2) : warpTileMask 0 0 tileB y x = false := by
  rw [warpTileMask]
  simp only [tileB, decide_eq_false_iff_not]
  push_cast
  omega

/-- Mean fusion of the two warped example tiles produces the expected column
profile 10 / 15 / 20 at every pixel of the 4×6 block. -/
theorem c1_fused (garbage : ℕ → ℕ → ℕ → ℚ) (y x : ℕ) (hy : y < 4) (hx : x < 6) :
    fuse_mean 16 garbage
      [warpTileData 0 0 16 tileA, warpTileData 0 0 16 tileB]
      [fun r c => nanToNumBool (warpTileMask 0 0 tileA r c),
       fun r c => nanToNumBool (warpTileMask 0 0 tileB r c)] y x = c1Expected x := by
  rw [fuse_mean]
  simp only [meanWeight, meanDenominator, maskAt, tileAt, List.getD_cons_zero,
    List.getD_cons_succ, List.length_cons, List.length_nil, Finset.sum_range_succ,
    Finset.sum_range_zero, nanToNumBool]
  rcases lt_or_ge x 2 with h2 | h2
  · rw [c1A_mask_in y x hy (by omega), c1B_mask_out y x h2,
      c1A_data_in y x hy (by omega), c1B_data_out y x h2, c1Expected, if_pos h2]
    norm_num [boolToQ, nanToNumQ, clip01Q, ratTrunc, castU]
  · rcases lt_or_ge x 4 with h4 | h4
    · have hn2 : ¬x < 2 := by omega
      rw [c1A_mask_in y x hy h4, c1B_mask_in y x hy h2 (by omega),
        c1A_data_in y x hy h4, c1B_data_in y x hy h2 (by omega),
        c1Expected, if_neg hn2, if_pos h4]
      norm_num [boolToQ, nanToNumQ, clip01Q, ratTrunc, castU]
    · have hn2 : ¬x < 2 := by omega
      have hn4 : ¬x < 4 := by omega
      rw [c1A_mask_out y x h4, c1B_mask_in y x hy h2 hx,
        c1A_data_out y x h4, c1B_data_in y x hy h2 hx,
        c1Expected, if_neg hn2, if_neg hn4]
      norm_num [boolToQ, nanToNumQ, clip01Q, ratTrunc, castU]

/-- C1: assembling the 4×6 block at origin (0, 0) from tile A (4×4, constant
10, at (0, 0)) and tile B (4×4, constant 20, at (0, 2)) through the warp
engine followed by mean fusion yields 10 on columns 0-1, 15 on columns 2-3
and 20 on columns 4-5, at every row (for any stale-memory contents, since
every pixel of this block is covered). -/
theorem c1_end_to_end_mean_assembly (garbage : ℕ → ℕ → ℕ → ℚ) (y x : ℕ)
    (hy : y < 4) (hx : x < 6) :
    (assemble_chunk c1BlockInfo (fun _ => [tileA, tileB]) translate_tiles_2d
        (fuse_mean 16 garbage) 16).1.val 0 0 0 y x = c1Expected x := by
  rw [assemble_chunk]
  simp only [c1BlockInfo, translate_tiles_2d, List.map_cons, List.map_nil,
    List.length_cons, List.length_nil]
  rw [if_pos (by norm_num)]
  show castU 16 (fuse_mean 16 garbage
      [warpTileData 0 0 16 tileA, warpTileData 0 0 16 tileB]
      [fun r c => nanToNumBool (warpTileMask 0 0 tileA r c),
       fun r c => nanToNumBool (warpTileMask 0 0 tileB r c)] y x) = c1Expected x
  rw [c1_fused garbage y x hy hx, c1Expected]
  split_ifs <;> decide

/-- Witness for C1 at a concrete pixel: row 0, column 2 (the overlap region)
fuses to 15. -/
theorem c1_witness :
    (0 < 4 ∧ 2 < 6)
      ∧ (assemble_chunk c1BlockInfo (fun _ => [tileA, tileB]) translate_tiles_2d
          (fuse_mean 16 (fun _ _ _ => 0)) 16).1.val 0 0 0 0 2 = c1Expected 2 :=
  ⟨by decide, c1_end_to_end_mean_assembly (fun _ _ _ => 0) 0 2 (by decide) (by decide)⟩
